import Mathlib

/-!
Verification development for the piecash-scripts balance/conversion engine.

Shallow embedding of the Python sources:
  * `src/utils.py`       — `top_and_other`, `currency_conversion_on_date`,
                           `get_historical_balance`
  * `src/analysis.py`    — `BookAnalysis.get_account`, `agg_balance`,
                           `balance_by_currency`
  * `src/prices/ecb_fx.py` — `ecb_fx_rate_from_eur`, `ecb_fx_rate`,
                           `ecb_fx_rate_range`

Modelling conventions:
  * Python `float`/`Decimal` values are modelled as exact rationals (`ℚ`);
    `1 / x` is total rational division (Python would raise on `x = 0`,
    which no claim here exercises).
  * `datetime.date` is modelled as `ℤ` (a day number); `timedelta`
    subtraction and `abs` become integer subtraction and `|·|`.
  * A `piecash.Commodity` is identified by its mnemonic; equality is
    mnemonic equality.
  * The book's price table is a plain list of `Price` records;
    `commodity.prices.filter_by(currency=c)` becomes a list filter over it.
  * Exceptions (`PriceNotFoundError`, `GncConversionError`) become
    `Except` errors; `try/except` becomes a `match` on the result.
  * Python's mutable cache dict is modelled by explicit state passing:
    the conversion function returns the updated cache.  The extra
    `searched` flag records whether the function ran a price search
    (i.e. reached the forward/reverse filtering in lines 69-99 of
    `utils.py`), used to state the cache-hit claims observationally.
-/

/-- A commodity (currency or security), identified by its mnemonic. -/
structure Commodity where
  mnemonic : String
deriving DecidableEq, Repr

/-- A stored price record: conversion from `commodity` to `currency`
on `date` at rate `value` (a row of the piecash price table). -/
structure Price where
  commodity : Commodity
  currency : Commodity
  date : ℤ
  value : ℚ
deriving DecidableEq, Repr

/-- One leg of a transaction posted to an account.  The owning
transaction's `post_date` is inlined, which is all
`get_historical_balance` reads from it. -/
structure Split where
  quantity : ℚ
  post_date : ℤ
deriving DecidableEq, Repr

/-- An account node: name, native commodity, sign attribute (±1 for real
piecash accounts), splits and child accounts.  The parent reference is
not stored; functions that need `account.parent.commodity` take it as an
explicit argument. -/
inductive Account where
  | mk (name : String) (commodity : Commodity) (sign : ℚ)
       (splits : List Split) (children : List Account)

def Account.name : Account → String
  | .mk n _ _ _ _ => n

def Account.commodity : Account → Commodity
  | .mk _ c _ _ _ => c

def Account.sign : Account → ℚ
  | .mk _ _ s _ _ => s

def Account.splits : Account → List Split
  | .mk _ _ _ sp _ => sp

def Account.children : Account → List Account
  | .mk _ _ _ _ ch => ch

/-- Errors raised by the conversion/balance engine: `PriceNotFoundError`
(carrying the two commodities it names) and piecash's
`GncConversionError`. -/
inductive ConvError where
  | priceNotFound (fromCommodity toCommodity : Commodity)
  | gncConversion
deriving DecidableEq, Repr

/-- Python dict assignment `xs[k] = v`: overwrite the entry for `k` if
present, else append a new one (pandas `obj['Other'] = v` behaves the
same way on an existing label). -/
def setItem {κ α : Type} [DecidableEq κ] (xs : List (κ × α)) (k : κ) (v : α) :
    List (κ × α) :=
  if (xs.map Prod.fst).contains k then
    xs.map (fun p => if p.1 = k then (k, v) else p)
  else
    xs ++ [(k, v)]

/-- The `closest_conv_cache` dict: commodity pair ↦ (date ↦ factor). -/
abbrev Cache := List ((Commodity × Commodity) × List (ℤ × ℚ))

/-- Cache read: the `on_date in closest_conv_cache.get(pair, dict())`
test and the subsequent `closest_conv_cache[pair][on_date]` read. -/
def cacheLookup (c : Cache) (pair : Commodity × Commodity) (d : ℤ) : Option ℚ :=
  match c.lookup pair with
  | some m => m.lookup d
  | none => none

/-- Cache write: `closest_conv_cache[pair][on_date] = v`, creating the
inner dict when absent.  Modelled by shadowing: the new binding is
looked up first. -/
def cacheInsert (c : Cache) (pair : Commodity × Commodity) (d : ℤ) (v : ℚ) :
    Cache :=
  (pair, (d, v) :: ((c.lookup pair).getD [])) :: c

/-- Python's `min(rates, key=lambda p: abs(p.date - on_date))`: first element of
minimal absolute date distance (Python `min` keeps the earliest element
on ties). -/
def minByDist (on_date : ℤ) : List Price → Option Price
  | [] => none
  | p :: ps =>
    match minByDist on_date ps with
    | none => some p
    | some q => if |q.date - on_date| < |p.date - on_date| then some q else some p

/-- Query ordering `order_by(Price.date.asc())`. -/
def sortByDateAsc (ps : List Price) : List Price :=
  List.insertionSort (fun p q : Price => p.date ≤ q.date) ps

/-- The price-table query `commodity.prices.filter_by(currency=currency)`: the stored prices
converting `commodity` into `currency`. -/
def forwardPrices (book : List Price) (commodity currency : Commodity) :
    List Price :=
  book.filter (fun p => p.commodity = commodity ∧ p.currency = currency)

/-- Lines 69-99 of `utils.py`: search forward and reverse price sets and
pick the temporally closest rate, preferring forward on a tie; fail with
`PriceNotFoundError` if both sets are empty. -/
def closestFactor (book : List Price) (commodity currency : Commodity)
    (on_date : ℤ) : Except ConvError ℚ :=
  let closest_forward := minByDist on_date (sortByDateAsc (forwardPrices book commodity currency))
  let closest_reverse := minByDist on_date (sortByDateAsc (forwardPrices book currency commodity))
  match closest_forward, closest_reverse with
  | none, none => .error (.priceNotFound commodity currency)
  | some f, none => .ok f.value
  | none, some r => .ok (1 / r.value)
  | some f, some r =>
    if |f.date - on_date| ≤ |r.date - on_date| then .ok f.value
    else .ok (1 / r.value)

/-- Result of `currency_conversion_on_date`: the factor, the cache as
left behind by the call (Python mutates it in place), and whether the
call performed a price search (instrumentation; `false` on the
same-commodity early return and on a cache hit). -/
structure ConvResult where
  factor : ℚ
  cache : Option Cache
  searched : Bool
deriving DecidableEq, Repr

/-- The function `currency_conversion_on_date(commodity, currency,
on_date, closest_conv_cache)` from `src/utils.py` lines 50-104. -/
def currency_conversion_on_date (book : List Price)
    (commodity currency : Commodity) (on_date : ℤ)
    (closest_conv_cache : Option Cache) : Except ConvError ConvResult :=
  if commodity = currency then
    .ok ⟨1, closest_conv_cache, false⟩
  else
    match closest_conv_cache with
    | some cache =>
      match cacheLookup cache (commodity, currency) on_date with
      | some v => .ok ⟨v, some cache, false⟩
      | none =>
        match closestFactor book commodity currency on_date with
        | .ok v =>
          .ok ⟨v, some (cacheInsert cache (commodity, currency) on_date v), true⟩
        | .error e => .error e
    | none =>
      match closestFactor book commodity currency on_date with
      | .ok v => .ok ⟨v, none, true⟩
      | .error e => .error e

/-- The cache-free factor view of `currency_conversion_on_date` (an
external call with `closest_conv_cache=None`), i.e. the §4.1
`resolve_rate` contract. -/
def convFactor (book : List Price) (commodity currency : Commodity)
    (on_date : ℤ) : Except ConvError ℚ :=
  (currency_conversion_on_date book commodity currency on_date none).map (·.factor)

/-- Lines 127-137 of `utils.py`: sum of split quantities, restricted to
transactions posted on or before `at_date` when a date is given. -/
def splitsSum (splits : List Split) (at_date : Option ℤ) : ℚ :=
  match at_date with
  | none => (splits.map (·.quantity)).sum
  | some d => ((splits.filter (fun sp => sp.post_date ≤ d)).map (·.quantity)).sum

/-- Lines 138-158 of `utils.py`: convert the raw split sum `bal` from the
account's commodity `aco` into the (already defaulted) target `co`,
trying the direct conversion first and falling back to the two-hop
conversion through the parent's commodity `pco`.  On the dated path the
cache is created when absent (line 143) and threaded through; errors of
the fallback hops propagate (the `except` only guards the direct
attempt, and a failing conversion never writes to the cache). -/
def convertBalance (book : List Price)
    (pcConv : Commodity → Commodity → Except ConvError ℚ)
    (aco pco co : Commodity) (bal : ℚ) (at_date : Option ℤ)
    (cache : Option Cache) : Except ConvError (ℚ × Option Cache) :=
  if co = aco then .ok (bal, cache)
  else
    match at_date with
    | some d =>
      let c0 : Cache := cache.getD []
      match currency_conversion_on_date book aco co d (some c0) with
      | .ok r => .ok (bal * r.factor, r.cache)
      | .error _ =>
        match currency_conversion_on_date book aco pco d (some c0) with
        | .error e => .error e
        | .ok r1 =>
          match currency_conversion_on_date book pco co d r1.cache with
          | .error e => .error e
          | .ok r2 => .ok (bal * (r1.factor * r2.factor), r2.cache)
    | none =>
      match pcConv aco co with
      | .ok f => .ok (bal * f, cache)
      | .error _ =>
        match pcConv aco pco with
        | .error e => .error e
        | .ok f1 =>
          match pcConv pco co with
          | .error e => .error e
          | .ok f2 => .ok (bal * (f1 * f2), cache)

/-- Cache-free reference for `convertBalance` (dated conversions via
`convFactor`). -/
def convertBalanceSpec (book : List Price)
    (pcConv : Commodity → Commodity → Except ConvError ℚ)
    (aco pco co : Commodity) (bal : ℚ) (at_date : Option ℤ) :
    Except ConvError ℚ :=
  if co = aco then .ok bal
  else
    match at_date with
    | some d =>
      match convFactor book aco co d with
      | .ok f => .ok (bal * f)
      | .error _ =>
        match convFactor book aco pco d with
        | .error e => .error e
        | .ok f1 =>
          match convFactor book pco co d with
          | .error e => .error e
          | .ok f2 => .ok (bal * (f1 * f2))
    | none =>
      match pcConv aco co with
      | .ok f => .ok (bal * f)
      | .error _ =>
        match pcConv aco pco with
        | .error e => .error e
        | .ok f1 =>
          match pcConv pco co with
          | .error e => .error e
          | .ok f2 => .ok (bal * (f1 * f2))

mutual

/-- The function `get_historical_balance(account, recurse, commodity,
natural_sign, at_date, closest_conv_cache)` from `src/utils.py` lines
107-176.

`pcConv` abstracts piecash's external `Commodity.currency_conversion`
(used only on the `at_date is None` path); `parent_commodity` stands for
`account.parent.commodity` (recursive calls pass the actual parent's
commodity).  The result pairs the balance with the cache as left behind
by the call (Python mutates the dict in place; rebinding `None` to an
empty dict on line 143 is visible to the recursive calls, hence the `Option Cache`
threading). -/
def get_historical_balance (book : List Price)
    (pcConv : Commodity → Commodity → Except ConvError ℚ) :
    Account → Commodity → Bool → Option Commodity → Bool → Option ℤ →
    Option Cache → Except ConvError (ℚ × Option Cache)
  | .mk nm aco sg sp children, parent_commodity, recurse, commodity,
    natural_sign, at_date, closest_conv_cache =>
    let co := commodity.getD aco
    let bal : ℚ := splitsSum sp at_date
    match convertBalance book pcConv aco parent_commodity co bal at_date closest_conv_cache with
    | .error e => .error e
    | .ok (bal1, cache1) =>
      match
        (match recurse, children with
        | true, _ :: _ =>
          match getHBChildren book pcConv aco children (some co) at_date cache1 with
          | .error e => .error e
          | .ok (s, c2) => .ok (bal1 + s, c2)
        | _, _ => .ok (bal1, cache1) : Except ConvError (ℚ × Option Cache)) with
      | .error e => .error e
      | .ok (bal2, cache2) =>
        .ok (if natural_sign then bal2 * sg else bal2, cache2)

/-- The `sum(get_historical_balance(acc, recurse, commodity,
natural_sign=False, at_date, closest_conv_cache) for acc in
account.children)` generator of lines 160-171: children are evaluated
left to right, sharing (and mutating) the one cache. -/
def getHBChildren (book : List Price)
    (pcConv : Commodity → Commodity → Except ConvError ℚ)
    (pco : Commodity) :
    List Account → Option Commodity → Option ℤ → Option Cache →
    Except ConvError (ℚ × Option Cache)
  | [], _, _, cache => .ok (0, cache)
  | a :: as, commodity, at_date, cache =>
    match get_historical_balance book pcConv a pco true commodity false at_date cache with
    | .error e => .error e
    | .ok (v, c1) =>
      match getHBChildren book pcConv pco as commodity at_date c1 with
      | .error e => .error e
      | .ok (s, c2) => .ok (v + s, c2)

end

/-- The balance value returned by an external
`get_historical_balance` call (Python callers never see the cache). -/
def getHBval (book : List Price)
    (pcConv : Commodity → Commodity → Except ConvError ℚ)
    (account : Account) (parent_commodity : Commodity) (recurse : Bool)
    (commodity : Option Commodity) (natural_sign : Bool)
    (at_date : Option ℤ) (cache : Option Cache) : Except ConvError ℚ :=
  (get_historical_balance book pcConv account parent_commodity recurse
    commodity natural_sign at_date cache).map Prod.fst

mutual

/-- Cache-free reference computation of `get_historical_balance`:
identical control flow, with every dated conversion replaced by the
cache-free `convFactor`.  Related to the implementation by
`get_historical_balance_spec`. -/
def balanceSpec (book : List Price)
    (pcConv : Commodity → Commodity → Except ConvError ℚ) :
    Account → Commodity → Bool → Option Commodity → Bool → Option ℤ →
    Except ConvError ℚ
  | .mk nm aco sg sp children, parent_commodity, recurse, commodity,
    natural_sign, at_date =>
    let co := commodity.getD aco
    let bal : ℚ := splitsSum sp at_date
    match convertBalanceSpec book pcConv aco parent_commodity co bal at_date with
    | .error e => .error e
    | .ok bal1 =>
      match
        (match recurse, children with
        | true, _ :: _ =>
          match balanceSpecList book pcConv aco children (some co) at_date with
          | .error e => .error e
          | .ok s => .ok (bal1 + s)
        | _, _ => .ok bal1 : Except ConvError ℚ) with
      | .error e => .error e
      | .ok bal2 => .ok (if natural_sign then bal2 * sg else bal2)

/-- Cache-free reference for `getHBChildren`. -/
def balanceSpecList (book : List Price)
    (pcConv : Commodity → Commodity → Except ConvError ℚ)
    (pco : Commodity) :
    List Account → Option Commodity → Option ℤ → Except ConvError ℚ
  | [], _, _ => .ok 0
  | a :: as, commodity, at_date =>
    match balanceSpec book pcConv a pco true commodity false at_date with
    | .error e => .error e
    | .ok v =>
      match balanceSpecList book pcConv pco as commodity at_date with
      | .error e => .error e
      | .ok s => .ok (v + s)

end

/-- A cache is consistent with the book when every stored factor is the
one the cache-free resolution would compute (the invariant Python
maintains, since entries are only ever written by
`currency_conversion_on_date` itself from the immutable price table). -/
def Consistent (book : List Price) (cache : Cache) : Prop :=
  ∀ c1 c2 d v, cacheLookup cache (c1, c2) d = some v →
    convFactor book c1 c2 d = .ok v

/-- Consistency lifted to the optional cache argument. -/
def ConsistentO (book : List Price) : Option Cache → Prop
  | none => True
  | some c => Consistent book c

theorem consistent_nil (book : List Price) : Consistent book [] := by
  intro c1 c2 d v h
  simp [cacheLookup, List.lookup] at h

theorem cacheLookup_insert_self (c : Cache) (pair : Commodity × Commodity)
    (d : ℤ) (v : ℚ) : cacheLookup (cacheInsert c pair d v) pair d = some v := by
  simp [cacheLookup, cacheInsert, List.lookup]

theorem cacheLookup_insert_other (c : Cache) (pair pair' : Commodity × Commodity)
    (d d' : ℤ) (v : ℚ) (h : pair' ≠ pair ∨ d' ≠ d) :
    cacheLookup (cacheInsert c pair d v) pair' d' = cacheLookup c pair' d' := by
  rcases eq_or_ne pair' pair with rfl | hp
  · have hd : d' ≠ d := by tauto
    have hbd : (d' == d) = false := beq_false_of_ne hd
    cases hc : c.lookup pair' with
    | none => simp [cacheLookup, cacheInsert, List.lookup_cons, hbd, hc]
    | some m => simp [cacheLookup, cacheInsert, List.lookup_cons, hbd, hc]
  · have hbp : (pair' == pair) = false := beq_false_of_ne hp
    simp [cacheLookup, cacheInsert, List.lookup_cons, hbp]

theorem consistent_insert (book : List Price) (c : Cache)
    (pair : Commodity × Commodity) (d : ℤ) (v : ℚ)
    (hc : Consistent book c) (hv : convFactor book pair.1 pair.2 d = .ok v) :
    Consistent book (cacheInsert c pair d v) := by
  intro c1 c2 d' w h
  rcases eq_or_ne ((c1, c2), d') (pair, d) with heq | hne
  · obtain ⟨h1, h2⟩ := Prod.mk.injEq _ _ _ _ ▸ heq
    subst h1
    subst h2
    rw [cacheLookup_insert_self] at h
    cases h
    exact hv
  · have : (c1, c2) ≠ pair ∨ d' ≠ d := by
      by_contra hcon
      push_neg at hcon
      exact hne (by simp [hcon.1, hcon.2])
    rw [cacheLookup_insert_other _ _ _ _ _ _ this] at h
    exact hc c1 c2 d' w h

/-- With a consistent cache, `currency_conversion_on_date` computes the
cache-free factor and leaves behind a consistent cache. -/
theorem conv_some_spec (book : List Price) (c1 c2 : Commodity) (d : ℤ)
    (cache : Cache) (h : Consistent book cache) :
    (∀ v, convFactor book c1 c2 d = .ok v →
      ∃ c' b, currency_conversion_on_date book c1 c2 d (some cache)
          = .ok ⟨v, some c', b⟩ ∧ Consistent book c')
    ∧ (∀ e, convFactor book c1 c2 d = .error e →
      currency_conversion_on_date book c1 c2 d (some cache) = .error e) := by
  by_cases hc12 : c1 = c2
  · subst hc12
    constructor
    · intro v hv
      simp [convFactor, currency_conversion_on_date, Except.map] at hv
      subst hv
      exact ⟨cache, false, by simp [currency_conversion_on_date], h⟩
    · intro e he
      simp [convFactor, currency_conversion_on_date, Except.map] at he
  · have hcf : convFactor book c1 c2 d
        = match closestFactor book c1 c2 d with
          | .ok v => .ok v
          | .error e => .error e := by
      simp only [convFactor, currency_conversion_on_date, if_neg hc12]
      cases closestFactor book c1 c2 d <;> simp [Except.map]
    cases hl : cacheLookup cache (c1, c2) d with
    | some v0 =>
      have hv0 : convFactor book c1 c2 d = .ok v0 := h c1 c2 d v0 hl
      constructor
      · intro v hv
        rw [hv0] at hv
        cases hv
        exact ⟨cache, false,
          by simp [currency_conversion_on_date, if_neg hc12, hl], h⟩
      · intro e he
        rw [hv0] at he
        cases he
    | none =>
      cases hcl : closestFactor book c1 c2 d with
      | ok w =>
        have hw : convFactor book c1 c2 d = .ok w := by rw [hcf, hcl]
        constructor
        · intro v hv
          rw [hw] at hv
          cases hv
          refine ⟨cacheInsert cache (c1, c2) d w, true,
            by simp [currency_conversion_on_date, if_neg hc12, hl, hcl], ?_⟩
          exact consistent_insert book cache (c1, c2) d w h hw
        · intro e he
          rw [hw] at he
          cases he
      | error e0 =>
        have hw : convFactor book c1 c2 d = .error e0 := by rw [hcf, hcl]
        constructor
        · intro v hv
          rw [hw] at hv
          cases hv
        · intro e he
          rw [hw] at he
          cases he
          simp [currency_conversion_on_date, if_neg hc12, hl, hcl]

/-- Under a consistent cache, `convertBalance` computes the cache-free
conversion and leaves a consistent cache behind. -/
theorem convertBalance_spec (book : List Price)
    (pcConv : Commodity → Commodity → Except ConvError ℚ)
    (aco pco co : Commodity) (bal : ℚ) (at_date : Option ℤ)
    (cache : Option Cache) (h : ConsistentO book cache) :
    (convertBalance book pcConv aco pco co bal at_date cache).map Prod.fst
      = convertBalanceSpec book pcConv aco pco co bal at_date
    ∧ ∀ v c', convertBalance book pcConv aco pco co bal at_date cache
        = .ok (v, c') → ConsistentO book c' := by
  by_cases hco : co = aco
  · refine ⟨by simp [convertBalance, convertBalanceSpec, hco, Except.map], ?_⟩
    intro v c' hv
    simp [convertBalance, hco] at hv
    rw [← hv.2]
    exact h
  · cases at_date with
    | none =>
      cases hd : pcConv aco co with
      | ok f =>
        refine ⟨by simp [convertBalance, convertBalanceSpec, hco, hd, Except.map], ?_⟩
        intro v c' hv
        simp [convertBalance, hco, hd] at hv
        rw [← hv.2]
        exact h
      | error e =>
        cases h1 : pcConv aco pco with
        | error e1 =>
          refine ⟨by simp [convertBalance, convertBalanceSpec, hco, hd, h1, Except.map], ?_⟩
          intro v c' hv
          simp [convertBalance, hco, hd, h1] at hv
        | ok f1 =>
          cases h2 : pcConv pco co with
          | error e2 =>
            refine ⟨by simp [convertBalance, convertBalanceSpec, hco, hd, h1, h2, Except.map], ?_⟩
            intro v c' hv
            simp [convertBalance, hco, hd, h1, h2] at hv
          | ok f2 =>
            refine ⟨by simp [convertBalance, convertBalanceSpec, hco, hd, h1, h2, Except.map], ?_⟩
            intro v c' hv
            simp [convertBalance, hco, hd, h1, h2] at hv
            rw [← hv.2]
            exact h
    | some d =>
      have hc0 : Consistent book (cache.getD []) := by
        cases cache with
        | none => exact consistent_nil book
        | some c => exact h
      obtain ⟨hok, herr⟩ := conv_some_spec book aco co d (cache.getD []) hc0
      cases hdir : convFactor book aco co d with
      | ok f =>
        obtain ⟨c', b, hconv, hc'⟩ := hok f hdir
        refine ⟨by simp [convertBalance, convertBalanceSpec, hco, hconv, hdir, Except.map], ?_⟩
        intro v c'' hv
        simp [convertBalance, hco, hconv] at hv
        rw [← hv.2]
        exact hc'
      | error e =>
        have hconv := herr e hdir
        obtain ⟨hok1, herr1⟩ := conv_some_spec book aco pco d (cache.getD []) hc0
        cases h1 : convFactor book aco pco d with
        | error e1 =>
          have hconv1 := herr1 e1 h1
          refine ⟨by simp [convertBalance, convertBalanceSpec, hco, hconv, hdir, hconv1, h1, Except.map], ?_⟩
          intro v c'' hv
          simp [convertBalance, hco, hconv, hconv1] at hv
        | ok f1 =>
          obtain ⟨c1, b1, hconv1, hc1⟩ := hok1 f1 h1
          obtain ⟨hok2, herr2⟩ := conv_some_spec book pco co d c1 hc1
          cases h2 : convFactor book pco co d with
          | error e2 =>
            have hconv2 := herr2 e2 h2
            refine ⟨by simp [convertBalance, convertBalanceSpec, hco, hconv, hdir, hconv1, h1, hconv2, h2, Except.map], ?_⟩
            intro v c'' hv
            simp [convertBalance, hco, hconv, hconv1, hconv2] at hv
          | ok f2 =>
            obtain ⟨c2, b2, hconv2, hc2⟩ := hok2 f2 h2
            refine ⟨by simp [convertBalance, convertBalanceSpec, hco, hconv, hdir, hconv1, h1, hconv2, h2, Except.map], ?_⟩
            intro v c'' hv
            simp [convertBalance, hco, hconv, hconv1, hconv2] at hv
            rw [← hv.2]
            exact hc2

/-- Induction over the (finite, acyclic) account tree. -/
theorem Account.inductionOn {motive : Account → Prop}
    (h : ∀ nm co sg sp children, (∀ a ∈ children, motive a) →
      motive (.mk nm co sg sp children)) : ∀ a, motive a
  | .mk nm co sg sp children =>
    h nm co sg sp children (fun a _ha => Account.inductionOn h a)
termination_by a => sizeOf a
decreasing_by
  have hlt := List.sizeOf_lt_of_mem _ha
  simp only [Account.mk.sizeOf_spec]
  omega

/-- The property relating the implementation to the cache-free
reference: equal balance values under any consistent cache, and the
cache left behind stays consistent. -/
def HBagrees (book : List Price)
    (pcConv : Commodity → Commodity → Except ConvError ℚ) (a : Account) :
    Prop :=
  ∀ pco recurse commodity ns at_date cache, ConsistentO book cache →
    ((get_historical_balance book pcConv a pco recurse commodity ns at_date cache).map Prod.fst
       = balanceSpec book pcConv a pco recurse commodity ns at_date)
    ∧ ∀ v c', get_historical_balance book pcConv a pco recurse commodity ns at_date cache
        = .ok (v, c') → ConsistentO book c'

theorem getHBChildren_agrees (book : List Price)
    (pcConv : Commodity → Commodity → Except ConvError ℚ)
    (cs : List Account) (ih : ∀ a ∈ cs, HBagrees book pcConv a) :
    ∀ pco commodity at_date cache, ConsistentO book cache →
      ((getHBChildren book pcConv pco cs commodity at_date cache).map Prod.fst
         = balanceSpecList book pcConv pco cs commodity at_date)
      ∧ ∀ v c', getHBChildren book pcConv pco cs commodity at_date cache
          = .ok (v, c') → ConsistentO book c' := by
  induction cs with
  | nil =>
    intro pco commodity at_date cache hc
    refine ⟨by simp [getHBChildren, balanceSpecList, Except.map], ?_⟩
    intro v c' hv
    simp [getHBChildren] at hv
    rw [← hv.2]
    exact hc
  | cons a as ihtail =>
    intro pco commodity at_date cache hc
    obtain ⟨hval, hcons⟩ := ih a (by simp) pco true commodity false at_date cache hc
    cases hhd : get_historical_balance book pcConv a pco true commodity false at_date cache with
    | error e =>
      have hs : balanceSpec book pcConv a pco true commodity false at_date = .error e := by
        rw [← hval, hhd]
        simp [Except.map]
      refine ⟨by simp [getHBChildren, balanceSpecList, hhd, hs, Except.map], ?_⟩
      intro v c' hv
      simp [getHBChildren, hhd] at hv
    | ok p =>
      obtain ⟨v0, c1⟩ := p
      have hs : balanceSpec book pcConv a pco true commodity false at_date = .ok v0 := by
        rw [← hval, hhd]
        simp [Except.map]
      have hc1 : ConsistentO book c1 := hcons v0 c1 hhd
      obtain ⟨hvalt, hconst⟩ :=
        ihtail (fun x hx => ih x (by simp [hx])) pco commodity at_date c1 hc1
      cases htl : getHBChildren book pcConv pco as commodity at_date c1 with
      | error e =>
        have hst : balanceSpecList book pcConv pco as commodity at_date = .error e := by
          rw [← hvalt, htl]
          simp [Except.map]
        refine ⟨by simp [getHBChildren, balanceSpecList, hhd, hs, htl, hst, Except.map], ?_⟩
        intro v c' hv
        simp [getHBChildren, hhd, htl] at hv
      | ok q =>
        obtain ⟨s0, c2⟩ := q
        have hst : balanceSpecList book pcConv pco as commodity at_date = .ok s0 := by
          rw [← hvalt, htl]
          simp [Except.map]
        refine ⟨by simp [getHBChildren, balanceSpecList, hhd, hs, htl, hst, Except.map], ?_⟩
        intro v c' hv
        simp [getHBChildren, hhd, htl] at hv
        rw [← hv.2]
        exact hconst s0 c2 htl

/-- Central congruence: `get_historical_balance` computes the cache-free
reference `balanceSpec`, for every consistent (in particular absent)
cache, and only ever leaves consistent caches behind. -/
theorem get_historical_balance_agrees (book : List Price)
    (pcConv : Commodity → Commodity → Except ConvError ℚ) :
    ∀ a, HBagrees book pcConv a := by
  refine Account.inductionOn ?_
  intro nm aco sg sp children ih pco recurse commodity ns at_date cache hc
  obtain ⟨hcbval, hcbcons⟩ :=
    convertBalance_spec book pcConv aco pco (commodity.getD aco)
      (splitsSum sp at_date) at_date cache hc
  cases hcb : convertBalance book pcConv aco pco (commodity.getD aco)
      (splitsSum sp at_date) at_date cache with
  | error e =>
    have hsb : convertBalanceSpec book pcConv aco pco (commodity.getD aco)
        (splitsSum sp at_date) at_date = .error e := by
      rw [← hcbval, hcb]
      simp [Except.map]
    refine ⟨by simp [get_historical_balance, balanceSpec, hcb, hsb, Except.map], ?_⟩
    intro v c' hv
    simp [get_historical_balance, hcb] at hv
  | ok p =>
    obtain ⟨bal1, cache1⟩ := p
    have hsb : convertBalanceSpec book pcConv aco pco (commodity.getD aco)
        (splitsSum sp at_date) at_date = .ok bal1 := by
      rw [← hcbval, hcb]
      simp [Except.map]
    have hc1 : ConsistentO book cache1 := hcbcons bal1 cache1 hcb
    obtain ⟨hchval, hchcons⟩ :=
      getHBChildren_agrees book pcConv children ih aco
        (some (commodity.getD aco)) at_date cache1 hc1
    match recurse, children with
    | false, _ =>
      refine ⟨by simp [get_historical_balance, balanceSpec, hcb, hsb, Except.map], ?_⟩
      intro v c' hv
      simp [get_historical_balance, hcb] at hv
      rw [← hv.2]
      exact hc1
    | true, [] =>
      refine ⟨by simp [get_historical_balance, balanceSpec, hcb, hsb, Except.map], ?_⟩
      intro v c' hv
      simp [get_historical_balance, hcb] at hv
      rw [← hv.2]
      exact hc1
    | true, b :: bs =>
      cases hch : getHBChildren book pcConv aco (b :: bs)
          (some (commodity.getD aco)) at_date cache1 with
      | error e =>
        have hsl : balanceSpecList book pcConv aco (b :: bs)
            (some (commodity.getD aco)) at_date = .error e := by
          rw [← hchval, hch]
          simp [Except.map]
        refine ⟨by simp [get_historical_balance, balanceSpec, hcb, hsb, hch, hsl, Except.map], ?_⟩
        intro v c' hv
        simp [get_historical_balance, hcb, hch] at hv
      | ok q =>
        obtain ⟨s0, cache2⟩ := q
        have hsl : balanceSpecList book pcConv aco (b :: bs)
            (some (commodity.getD aco)) at_date = .ok s0 := by
          rw [← hchval, hch]
          simp [Except.map]
        refine ⟨by simp [get_historical_balance, balanceSpec, hcb, hsb, hch, hsl, Except.map], ?_⟩
        intro v c' hv
        simp [get_historical_balance, hcb, hch] at hv
        rw [← hv.2]
        exact hchcons s0 cache2 hch

/-- Value view of the congruence, for an external call
(`closest_conv_cache=None`). -/
theorem getHBval_eq_balanceSpec (book : List Price)
    (pcConv : Commodity → Commodity → Except ConvError ℚ)
    (a : Account) (pco : Commodity) (recurse : Bool)
    (commodity : Option Commodity) (ns : Bool) (at_date : Option ℤ) :
    getHBval book pcConv a pco recurse commodity ns at_date none
      = balanceSpec book pcConv a pco recurse commodity ns at_date :=
  (get_historical_balance_agrees book pcConv a pco recurse commodity ns
    at_date none trivial).1

/-- C8: for every commodity `C` and date `d`, `resolve_rate(C, C, d)`
returns exactly 1, performs no price search and leaves the cache
untouched (no entry is created). -/
theorem claim_c8_same_commodity_unit (book : List Price) (c : Commodity)
    (d : ℤ) (cache : Option Cache) :
    currency_conversion_on_date book c c d cache = .ok ⟨1, cache, false⟩ := by
  simp [currency_conversion_on_date]

/-- C7: after a first `resolve_rate` call with an external cache returns
a factor, the identical second call on the cache left behind returns
exactly the same factor, performs no price search, and leaves the cache
unchanged (answered from the stored entry). -/
theorem claim_c7_cache_idempotent (book : List Price) (c1 c2 : Commodity)
    (d : ℤ) (cache : Cache) (r1 : ConvResult)
    (h : currency_conversion_on_date book c1 c2 d (some cache) = .ok r1) :
    currency_conversion_on_date book c1 c2 d r1.cache
      = .ok ⟨r1.factor, r1.cache, false⟩ := by
  by_cases hc : c1 = c2
  · subst hc
    simp [currency_conversion_on_date] at h
    rw [← h]
    simp [currency_conversion_on_date]
  · cases hl : cacheLookup cache (c1, c2) d with
    | some v =>
      simp [currency_conversion_on_date, hc, hl] at h
      rw [← h]
      simp [currency_conversion_on_date, hc, hl]
    | none =>
      cases hcl : closestFactor book c1 c2 d with
      | ok w =>
        simp [currency_conversion_on_date, hc, hl, hcl] at h
        rw [← h]
        simp [currency_conversion_on_date, hc, cacheLookup_insert_self]
      | error e =>
        simp [currency_conversion_on_date, hc, hl, hcl] at h

/-- C7 witness: a concrete miss-then-hit round trip. -/
theorem claim_c7_cache_idempotent_witness :
    currency_conversion_on_date [⟨⟨"USD"⟩, ⟨"EUR"⟩, 0, 2⟩] ⟨"USD"⟩ ⟨"EUR"⟩ 0
        (some (cacheInsert [] (⟨"USD"⟩, ⟨"EUR"⟩) 0 2))
      = .ok ⟨2, some (cacheInsert [] (⟨"USD"⟩, ⟨"EUR"⟩) 0 2), false⟩ :=
  claim_c7_cache_idempotent [⟨⟨"USD"⟩, ⟨"EUR"⟩, 0, 2⟩] ⟨"USD"⟩ ⟨"EUR"⟩ 0 []
    ⟨2, some (cacheInsert [] (⟨"USD"⟩, ⟨"EUR"⟩) 0 2), true⟩ rfl

/-- C6: for distinct commodities with no stored price in either
direction, `resolve_rate` fails with `PriceNotFound` naming the two
commodities, and never instead returns any factor (in particular not a
default of zero or one). -/
theorem claim_c6_empty_sets_fail (book : List Price) (c1 c2 : Commodity)
    (d : ℤ) (hne : c1 ≠ c2)
    (hf : forwardPrices book c1 c2 = [])
    (hr : forwardPrices book c2 c1 = []) :
    convFactor book c1 c2 d = .error (.priceNotFound c1 c2)
    ∧ ∀ q : ℚ, convFactor book c1 c2 d ≠ .ok q := by
  have hcf : closestFactor book c1 c2 d = .error (.priceNotFound c1 c2) := by
    simp [closestFactor, hf, hr, sortByDateAsc, List.insertionSort, minByDist]
  refine ⟨?_, ?_⟩
  · simp [convFactor, currency_conversion_on_date, hne, hcf, Except.map]
  · intro q hq
    simp [convFactor, currency_conversion_on_date, hne, hcf, Except.map] at hq

/-- C6 witness: an empty price table. -/
theorem claim_c6_empty_sets_fail_witness :
    convFactor [] ⟨"USD"⟩ ⟨"EUR"⟩ 0
        = .error (.priceNotFound ⟨"USD"⟩ ⟨"EUR"⟩)
      ∧ ∀ q : ℚ, convFactor [] ⟨"USD"⟩ ⟨"EUR"⟩ 0 ≠ .ok q :=
  claim_c6_empty_sets_fail [] ⟨"USD"⟩ ⟨"EUR"⟩ 0 (by decide) (by decide) (by decide)

theorem minByDist_mem (d : ℤ) (ps : List Price) (p : Price)
    (h : minByDist d ps = some p) : p ∈ ps := by
  induction ps with
  | nil => simp [minByDist] at h
  | cons q qs ih =>
    cases hm : minByDist d qs with
    | none =>
      simp only [minByDist, hm] at h
      cases h
      simp
    | some r =>
      simp only [minByDist, hm] at h
      by_cases hlt : |r.date - d| < |q.date - d|
      · rw [if_pos hlt] at h
        cases h
        exact List.mem_cons_of_mem _ (ih hm)
      · rw [if_neg hlt] at h
        cases h
        simp

theorem minByDist_eq_none (d : ℤ) (ps : List Price)
    (h : minByDist d ps = none) : ps = [] := by
  cases ps with
  | nil => rfl
  | cons q qs =>
    cases hm : minByDist d qs with
    | none =>
      simp only [minByDist, hm] at h
      cases h
    | some r =>
      simp only [minByDist, hm] at h
      by_cases hlt : |r.date - d| < |q.date - d|
      · rw [if_pos hlt] at h; cases h
      · rw [if_neg hlt] at h; cases h

theorem minByDist_min (d : ℤ) : ∀ (ps : List Price) (p : Price),
    minByDist d ps = some p →
    ∀ q ∈ ps, |p.date - d| ≤ |q.date - d| := by
  intro ps
  induction ps with
  | nil =>
    intro p h
    simp [minByDist] at h
  | cons a as ih =>
    intro p h q hq
    cases hm : minByDist d as with
    | none =>
      simp only [minByDist, hm] at h
      cases h
      have : as = [] := minByDist_eq_none d as hm
      subst this
      rcases List.mem_cons.mp hq with rfl | hq'
      · exact le_refl _
      · cases hq'
    | some r =>
      simp only [minByDist, hm] at h
      rcases List.mem_cons.mp hq with rfl | hq'
      · by_cases hlt : |r.date - d| < |q.date - d|
        · rw [if_pos hlt] at h
          cases h
          exact le_of_lt hlt
        · rw [if_neg hlt] at h
          cases h
          exact le_refl _
      · by_cases hlt : |r.date - d| < |a.date - d|
        · rw [if_pos hlt] at h
          cases h
          exact ih _ hm q hq'
        · rw [if_neg hlt] at h
          cases h
          exact le_trans (not_lt.mp hlt) (ih _ hm q hq')

theorem minByDist_ne_none (d : ℤ) (ps : List Price) (h : ps ≠ []) :
    ∃ p, minByDist d ps = some p := by
  cases ps with
  | nil => exact absurd rfl h
  | cons a as =>
    simp only [minByDist]
    cases minByDist d as with
    | none => exact ⟨a, rfl⟩
    | some r =>
      by_cases hlt : |r.date - d| < |a.date - d|
      · exact ⟨r, if_pos hlt⟩
      · exact ⟨a, if_neg hlt⟩

theorem sortByDateAsc_perm (ps : List Price) : (sortByDateAsc ps).Perm ps :=
  List.perm_insertionSort _ ps

/-- C4: for distinct commodities with both candidate sets non-empty,
`resolve_rate` returns the value of a forward price of minimal absolute
date distance when that distance is ≤ the minimal reverse distance
(so in particular on an exact tie the forward price wins), and the
reciprocal of a minimal-distance reverse price otherwise. -/
theorem claim_c4_closest_preference (book : List Price) (c1 c2 : Commodity)
    (d : ℤ) (hne : c1 ≠ c2)
    (hf : forwardPrices book c1 c2 ≠ [])
    (hr : forwardPrices book c2 c1 ≠ []) :
    ∃ pf ∈ forwardPrices book c1 c2, ∃ pr ∈ forwardPrices book c2 c1,
      (∀ q ∈ forwardPrices book c1 c2, |pf.date - d| ≤ |q.date - d|)
      ∧ (∀ q ∈ forwardPrices book c2 c1, |pr.date - d| ≤ |q.date - d|)
      ∧ convFactor book c1 c2 d
          = .ok (if |pf.date - d| ≤ |pr.date - d| then pf.value
                 else 1 / pr.value) := by
  have hfs : sortByDateAsc (forwardPrices book c1 c2) ≠ [] := by
    intro hnil
    have hperm := sortByDateAsc_perm (forwardPrices book c1 c2)
    rw [hnil] at hperm
    exact hf hperm.symm.eq_nil
  have hrs : sortByDateAsc (forwardPrices book c2 c1) ≠ [] := by
    intro hnil
    have hperm := sortByDateAsc_perm (forwardPrices book c2 c1)
    rw [hnil] at hperm
    exact hr hperm.symm.eq_nil
  obtain ⟨pf, hpf⟩ := minByDist_ne_none d _ hfs
  obtain ⟨pr, hpr⟩ := minByDist_ne_none d _ hrs
  refine ⟨pf, (sortByDateAsc_perm _).mem_iff.mp (minByDist_mem d _ pf hpf),
          pr, (sortByDateAsc_perm _).mem_iff.mp (minByDist_mem d _ pr hpr),
          ?_, ?_, ?_⟩
  · intro q hq
    exact minByDist_min d _ pf hpf q ((sortByDateAsc_perm _).mem_iff.mpr hq)
  · intro q hq
    exact minByDist_min d _ pr hpr q ((sortByDateAsc_perm _).mem_iff.mpr hq)
  · by_cases hle : |pf.date - d| ≤ |pr.date - d|
    · simp [convFactor, currency_conversion_on_date, if_neg hne, closestFactor,
        hpf, hpr, if_pos hle, Except.map]
    · simp [convFactor, currency_conversion_on_date, if_neg hne, closestFactor,
        hpf, hpr, if_neg hle, Except.map]

/-- C4 witness: one forward and one reverse price at equal distance from
the query date; the forward value is used. -/
theorem claim_c4_closest_preference_witness :
    ∃ pf ∈ forwardPrices [⟨⟨"USD"⟩, ⟨"EUR"⟩, 1, 2⟩, ⟨⟨"EUR"⟩, ⟨"USD"⟩, 1, 4⟩]
        ⟨"USD"⟩ ⟨"EUR"⟩,
    ∃ pr ∈ forwardPrices [⟨⟨"USD"⟩, ⟨"EUR"⟩, 1, 2⟩, ⟨⟨"EUR"⟩, ⟨"USD"⟩, 1, 4⟩]
        ⟨"EUR"⟩ ⟨"USD"⟩,
      (∀ q ∈ forwardPrices [⟨⟨"USD"⟩, ⟨"EUR"⟩, 1, 2⟩, ⟨⟨"EUR"⟩, ⟨"USD"⟩, 1, 4⟩]
          ⟨"USD"⟩ ⟨"EUR"⟩, |pf.date - 0| ≤ |q.date - 0|)
      ∧ (∀ q ∈ forwardPrices [⟨⟨"USD"⟩, ⟨"EUR"⟩, 1, 2⟩, ⟨⟨"EUR"⟩, ⟨"USD"⟩, 1, 4⟩]
          ⟨"EUR"⟩ ⟨"USD"⟩, |pr.date - 0| ≤ |q.date - 0|)
      ∧ convFactor [⟨⟨"USD"⟩, ⟨"EUR"⟩, 1, 2⟩, ⟨⟨"EUR"⟩, ⟨"USD"⟩, 1, 4⟩]
          ⟨"USD"⟩ ⟨"EUR"⟩ 0
          = .ok (if |pf.date - 0| ≤ |pr.date - 0| then pf.value
                 else 1 / pr.value) :=
  claim_c4_closest_preference
    [⟨⟨"USD"⟩, ⟨"EUR"⟩, 1, 2⟩, ⟨⟨"EUR"⟩, ⟨"USD"⟩, 1, 4⟩]
    ⟨"USD"⟩ ⟨"EUR"⟩ 0 (by decide) (by decide) (by decide)

instance exceptDecEq {ε α : Type} [DecidableEq ε] [DecidableEq α] :
    DecidableEq (Except ε α) := fun x y =>
  match x, y with
  | .ok a, .ok b =>
    if h : a = b then isTrue (by rw [h])
    else isFalse (by intro hc; cases hc; exact h rfl)
  | .error a, .error b =>
    if h : a = b then isTrue (by rw [h])
    else isFalse (by intro hc; cases hc; exact h rfl)
  | .ok _, .error _ => isFalse (by intro hc; cases hc)
  | .error _, .ok _ => isFalse (by intro hc; cases hc)

theorem closestFactor_error_eq (book : List Price) (c1 c2 : Commodity)
    (d : ℤ) (e : ConvError) (h : closestFactor book c1 c2 d = .error e) :
    e = .priceNotFound c1 c2 := by
  cases hf : minByDist d (sortByDateAsc (forwardPrices book c1 c2)) with
  | none =>
    cases hr : minByDist d (sortByDateAsc (forwardPrices book c2 c1)) with
    | none =>
      simp only [closestFactor, hf, hr] at h
      cases h
      rfl
    | some r =>
      simp only [closestFactor, hf, hr] at h
      cases h
  | some f =>
    cases hr : minByDist d (sortByDateAsc (forwardPrices book c2 c1)) with
    | none =>
      simp only [closestFactor, hf, hr] at h
      cases h
    | some r =>
      simp only [closestFactor, hf, hr] at h
      split at h <;> cases h

theorem convFactor_error_eq (book : List Price) (c1 c2 : Commodity)
    (d : ℤ) (e : ConvError) (h : convFactor book c1 c2 d = .error e) :
    e = .priceNotFound c1 c2 := by
  by_cases hc : c1 = c2
  · subst hc
    simp [convFactor, currency_conversion_on_date, Except.map] at h
  · cases hcl : closestFactor book c1 c2 d with
    | ok v =>
      simp [convFactor, currency_conversion_on_date, hc, hcl, Except.map] at h
    | error e0 =>
      have he0 := closestFactor_error_eq book c1 c2 d e0 hcl
      simp [convFactor, currency_conversion_on_date, hc, hcl, Except.map] at h
      rw [← h]
      exact he0

/-- C3: when the account's commodity differs from the target and the
direct dated resolution fails, the balance is converted by the product
of the two hop factors (account commodity → parent commodity → target),
both resolved at the same date; and if either hop fails, the whole
balance computation fails with `PriceNotFound` (for any `recurse` /
`natural_sign`). -/
theorem claim_c3_two_hop_fallback (book : List Price)
    (pcConv : Commodity → Commodity → Except ConvError ℚ)
    (nm : String) (aco : Commodity) (sg : ℚ) (sp : List Split)
    (children : List Account) (pco co : Commodity) (d : ℤ)
    (hco : co ≠ aco)
    (e : ConvError) (hdirect : convFactor book aco co d = .error e) :
    (∀ f1 f2, convFactor book aco pco d = .ok f1 →
      convFactor book pco co d = .ok f2 →
      getHBval book pcConv (.mk nm aco sg sp children) pco false (some co)
          false (some d) none
        = .ok (splitsSum sp (some d) * (f1 * f2)))
    ∧ (∀ e1, convFactor book aco pco d = .error e1 →
      ∀ recurse ns,
        getHBval book pcConv (.mk nm aco sg sp children) pco recurse
            (some co) ns (some d) none
          = .error (.priceNotFound aco pco))
    ∧ (∀ f1 e2, convFactor book aco pco d = .ok f1 →
      convFactor book pco co d = .error e2 →
      ∀ recurse ns,
        getHBval book pcConv (.mk nm aco sg sp children) pco recurse
            (some co) ns (some d) none
          = .error (.priceNotFound pco co)) := by
  refine ⟨?_, ?_, ?_⟩
  · intro f1 f2 h1 h2
    rw [getHBval_eq_balanceSpec]
    simp [balanceSpec, convertBalanceSpec, hco, hdirect, h1, h2]
  · intro e1 h1 recurse ns
    have he1 := convFactor_error_eq book aco pco d e1 h1
    subst he1
    rw [getHBval_eq_balanceSpec]
    simp [balanceSpec, convertBalanceSpec, hco, hdirect, h1]
  · intro f1 e2 h1 h2 recurse ns
    have he2 := convFactor_error_eq book pco co d e2 h2
    subst he2
    rw [getHBval_eq_balanceSpec]
    simp [balanceSpec, convertBalanceSpec, hco, hdirect, h1, h2]

/-- C3 witness: no USD↔EUR price, but USD→GBP (2) and GBP→EUR (3)
prices exist at the query date; the factor used is 2 × 3. -/
theorem claim_c3_two_hop_fallback_witness :
    getHBval [⟨⟨"USD"⟩, ⟨"GBP"⟩, 0, 2⟩, ⟨⟨"GBP"⟩, ⟨"EUR"⟩, 0, 3⟩]
        (fun _ _ => .error .gncConversion)
        (.mk "Stock" ⟨"USD"⟩ 1 [⟨1, 0⟩] []) ⟨"GBP"⟩ false (some ⟨"EUR"⟩)
        false (some 0) none
      = .ok (splitsSum [⟨1, 0⟩] (some 0) * (2 * 3)) :=
  (claim_c3_two_hop_fallback
      [⟨⟨"USD"⟩, ⟨"GBP"⟩, 0, 2⟩, ⟨⟨"GBP"⟩, ⟨"EUR"⟩, 0, 3⟩]
      (fun _ _ => .error .gncConversion) "Stock" ⟨"USD"⟩ 1 [⟨1, 0⟩] []
      ⟨"GBP"⟩ ⟨"EUR"⟩ 0 (by decide)
      (.priceNotFound ⟨"USD"⟩ ⟨"EUR"⟩) rfl).1 2 3 rfl rfl

theorem except_map_ok {ε α β : Type} (f : α → β) (a : α) :
    (Except.ok a : Except ε α).map f = .ok (f a) := rfl

theorem except_map_error {ε α β : Type} (f : α → β) (e : ε) :
    (Except.error e : Except ε α).map f = .error e := rfl

theorem except_ok_bind {ε α β : Type} (a : α) (f : α → Except ε β) :
    (Except.ok a : Except ε α) >>= f = f a := rfl

theorem except_error_bind {ε α β : Type} (e : ε) (f : α → Except ε β) :
    (Except.error e : Except ε α) >>= f = .error e := rfl

theorem except_pure_eq {ε α : Type} (a : α) :
    (pure a : Except ε α) = .ok a := rfl

theorem balanceSpecList_eq_mapM (book : List Price)
    (pcConv : Commodity → Commodity → Except ConvError ℚ)
    (pco : Commodity) (cs : List Account) (commodity : Option Commodity)
    (at_date : Option ℤ) :
    balanceSpecList book pcConv pco cs commodity at_date
      = (cs.mapM (fun a =>
          balanceSpec book pcConv a pco true commodity false at_date)).map
          List.sum := by
  induction cs with
  | nil =>
    simp only [balanceSpecList, List.mapM_nil, except_pure_eq, except_map_ok,
      List.sum_nil]
  | cons a as ih =>
    rw [List.mapM_cons]
    cases ha : balanceSpec book pcConv a pco true commodity false at_date with
    | error e =>
      simp only [balanceSpecList, ha, except_error_bind, except_map_error]
    | ok v =>
      simp only [balanceSpecList, ha, except_ok_bind]
      rw [ih]
      cases hm : as.mapM (fun a =>
          balanceSpec book pcConv a pco true commodity false at_date) with
      | error e =>
        simp only [hm, except_error_bind, except_map_error]
      | ok vs =>
        simp only [hm, except_ok_bind, except_pure_eq, except_map_ok,
          List.sum_cons]

/-- C2 (amended): for an account with children, the recursive
natural-sign balance equals the non-recursive natural-sign balance plus
`account.sign` times the sum of the children's recursive
`natural_sign=False` balances (same date, same explicit target
commodity). -/
theorem claim_c2_amended (book : List Price)
    (pcConv : Commodity → Commodity → Except ConvError ℚ)
    (nm : String) (aco : Commodity) (sg : ℚ) (sp : List Split)
    (children : List Account) (pco co : Commodity) (at_date : Option ℤ)
    (w : ℚ) (vs : List ℚ)
    (hch : children ≠ [])
    (hbase : getHBval book pcConv (.mk nm aco sg sp children) pco false
        (some co) true at_date none = .ok w)
    (hkids : children.mapM (fun c =>
        getHBval book pcConv c aco true (some co) false at_date none)
      = .ok vs) :
    getHBval book pcConv (.mk nm aco sg sp children) pco true (some co)
        true at_date none
      = .ok (w + sg * vs.sum) := by
  cases children with
  | nil => exact absurd rfl hch
  | cons b bs =>
    rw [getHBval_eq_balanceSpec] at hbase ⊢
    simp only [getHBval_eq_balanceSpec] at hkids
    have hlist : balanceSpecList book pcConv aco (b :: bs) (some co) at_date
        = .ok vs.sum := by
      rw [balanceSpecList_eq_mapM, hkids]
      simp [Except.map]
    cases hcbs : convertBalanceSpec book pcConv aco pco co
        (splitsSum sp at_date) at_date with
    | error e =>
      simp only [balanceSpec, Option.getD_some, hcbs] at hbase
      cases hbase
    | ok bal1 =>
      simp only [balanceSpec, Option.getD_some, hcbs] at hbase
      simp at hbase
      simp only [balanceSpec, Option.getD_some, hcbs, hlist, if_true]
      rw [← hbase]
      congr 1
      ring

/-- C2 witness: a two-node tree where all the amended identity's
hypotheses hold. -/
theorem claim_c2_amended_witness :
    getHBval [] (fun _ _ => .error .gncConversion)
        (.mk "a" ⟨"EUR"⟩ 1 [] [.mk "b" ⟨"EUR"⟩ 1 [] []]) ⟨"EUR"⟩ true
        (some ⟨"EUR"⟩) true none none
      = .ok (0 + 1 * ([0] : List ℚ).sum) :=
  claim_c2_amended [] (fun _ _ => .error .gncConversion) "a" ⟨"EUR"⟩ 1 []
    [.mk "b" ⟨"EUR"⟩ 1 [] []] ⟨"EUR"⟩ ⟨"EUR"⟩ none 0 [0]
    (List.cons_ne_nil _ _)
    (by simp [getHBval, get_historical_balance, convertBalance, splitsSum,
      Except.map])
    (by simp [getHBval, get_historical_balance, convertBalance, splitsSum,
      getHBChildren, Except.map, List.mapM, List.mapM.loop, except_pure_eq,
      except_ok_bind])

/-- C2 counterexample: for a sign −1 account with one child of balance 5,
the recursive balance is −5 while `balance(recurse=False)` plus the
child's `natural_sign=False` balance is 0 + 5: the claim's identity
fails at this input. -/
theorem claim_c2_counterexample :
    getHBval [] (fun _ _ => .error .gncConversion)
        (.mk "L" ⟨"EUR"⟩ (-1) [] [.mk "C" ⟨"EUR"⟩ 1 [⟨5, 0⟩] []]) ⟨"EUR"⟩
        true (some ⟨"EUR"⟩) true (some 10) none = .ok (-5)
    ∧ getHBval [] (fun _ _ => .error .gncConversion)
        (.mk "L" ⟨"EUR"⟩ (-1) [] [.mk "C" ⟨"EUR"⟩ 1 [⟨5, 0⟩] []]) ⟨"EUR"⟩
        false (some ⟨"EUR"⟩) true (some 10) none = .ok 0
    ∧ getHBval [] (fun _ _ => .error .gncConversion)
        (.mk "C" ⟨"EUR"⟩ 1 [⟨5, 0⟩] []) ⟨"EUR"⟩
        true (some ⟨"EUR"⟩) false (some 10) none = .ok 5
    ∧ (-5 : ℚ) ≠ 0 + 5 := by
  refine ⟨?_, ?_, ?_, by norm_num⟩
  · simp [getHBval, get_historical_balance, convertBalance, splitsSum,
      getHBChildren, Except.map]
  · simp [getHBval, get_historical_balance, convertBalance, splitsSum,
      getHBChildren, Except.map]
  · simp [getHBval, get_historical_balance, convertBalance, splitsSum,
      getHBChildren, Except.map]

/-- The operation `pandas.Series.add(other, fill_value=0)`: align on keys, summing
values present on both sides and keeping the rest (the index order of
the pandas result is abstracted; the claims about this function only
concern the key set and the values). -/
def seriesAdd (s t : List (String × ℚ)) : List (String × ℚ) :=
  s.map (fun p => (p.1, p.2 + ((t.lookup p.1).getD 0)))
    ++ t.filter (fun p => (s.lookup p.1).isNone)

mutual

/-- The method `BookAnalysis.balance_by_currency(account, at_date, currency)` from
`src/analysis.py` lines 207-231: the account's own non-recursive balance
keyed by the account's native commodity mnemonic (skipped when zero),
plus the children's series added in with `fill_value=0`. -/
def balance_by_currency (book : List Price)
    (pcConv : Commodity → Commodity → Except ConvError ℚ) :
    Account → Commodity → Option ℤ → Option Commodity →
    Except ConvError (List (String × ℚ))
  | .mk nm aco sg sp children, pco, at_date, currency =>
    match get_historical_balance book pcConv (.mk nm aco sg sp children)
        pco false currency true at_date none with
    | .error e => .error e
    | .ok (b, _) =>
      bbcChildren book pcConv aco children at_date currency
        (if b ≠ 0 then [(aco.mnemonic, b)] else [])

/-- The `for child in account.children: series = series.add(...)` loop. -/
def bbcChildren (book : List Price)
    (pcConv : Commodity → Commodity → Except ConvError ℚ)
    (pco : Commodity) :
    List Account → Option ℤ → Option Commodity → List (String × ℚ) →
    Except ConvError (List (String × ℚ))
  | [], _, _, series => .ok series
  | a :: as, at_date, currency, series =>
    match balance_by_currency book pcConv a pco at_date currency with
    | .error e => .error e
    | .ok cs =>
      bbcChildren book pcConv pco as at_date currency (seriesAdd series cs)

end

mutual

/-- All accounts of the subtree rooted at an account. -/
def Account.subtree : Account → List Account
  | .mk nm aco sg sp children =>
    .mk nm aco sg sp children :: Account.subtreeList children

/-- All accounts of the subtrees rooted at a list of accounts. -/
def Account.subtreeList : List Account → List Account
  | [] => []
  | a :: as => a.subtree ++ Account.subtreeList as

end

theorem seriesAdd_keys (s t : List (String × ℚ)) (k : String)
    (h : k ∈ (seriesAdd s t).map Prod.fst) :
    k ∈ s.map Prod.fst ∨ k ∈ t.map Prod.fst := by
  simp only [seriesAdd, List.map_append, List.mem_append] at h
  rcases h with h | h
  · left
    simp only [List.map_map, List.mem_map] at h
    obtain ⟨p, hp, hk⟩ := h
    simp only [List.mem_map]
    exact ⟨p, hp, hk⟩
  · right
    simp only [List.mem_map] at h
    obtain ⟨p, hp, hk⟩ := h
    simp only [List.mem_map]
    exact ⟨p, List.mem_of_mem_filter hp, hk⟩

theorem bbcChildren_keys (book : List Price)
    (pcConv : Commodity → Commodity → Except ConvError ℚ)
    (pco : Commodity) (cs : List Account)
    (ih : ∀ a ∈ cs, ∀ pco' at_date currency s,
      balance_by_currency book pcConv a pco' at_date currency = .ok s →
      ∀ k ∈ s.map Prod.fst, ∃ b ∈ a.subtree, b.commodity.mnemonic = k) :
    ∀ at_date currency series out,
      bbcChildren book pcConv pco cs at_date currency series = .ok out →
      ∀ k ∈ out.map Prod.fst,
        k ∈ series.map Prod.fst
        ∨ ∃ b ∈ Account.subtreeList cs, b.commodity.mnemonic = k := by
  induction cs with
  | nil =>
    intro at_date currency series out hout k hk
    simp only [bbcChildren] at hout
    cases hout
    exact Or.inl hk
  | cons a as ihtail =>
    intro at_date currency series out hout k hk
    cases ha : balance_by_currency book pcConv a pco at_date currency with
    | error e =>
      simp only [bbcChildren, ha] at hout
      cases hout
    | ok cs0 =>
      simp only [bbcChildren, ha] at hout
      have htail := ihtail (fun x hx => ih x (by simp [hx]))
        at_date currency (seriesAdd series cs0) out hout k hk
      rcases htail with hser | ⟨b, hb, hbk⟩
      · rcases seriesAdd_keys series cs0 k hser with hs | hc
        · exact Or.inl hs
        · obtain ⟨b, hb, hbk⟩ := ih a (by simp) pco at_date currency cs0 ha k hc
          refine Or.inr ⟨b, ?_, hbk⟩
          simp only [Account.subtreeList, List.mem_append]
          exact Or.inl hb
      · refine Or.inr ⟨b, ?_, hbk⟩
        simp only [Account.subtreeList, List.mem_append]
        exact Or.inr hb

/-- C5 (amended): `balance_by_currency` keys every entry by the native
commodity mnemonic of some account in the subtree — also when a target
currency is explicitly supplied (the values are then converted, but the
keys remain native, so the mapping does not collapse to a single entry
keyed by the supplied currency). -/
theorem claim_c5_amended (book : List Price)
    (pcConv : Commodity → Commodity → Except ConvError ℚ) :
    ∀ (a : Account) (pco : Commodity) (at_date : Option ℤ)
      (currency : Option Commodity) (s : List (String × ℚ)),
      balance_by_currency book pcConv a pco at_date currency = .ok s →
      ∀ k ∈ s.map Prod.fst, ∃ b ∈ a.subtree, b.commodity.mnemonic = k := by
  refine Account.inductionOn ?_
  intro nm aco sg sp children ih pco at_date currency s hs k hk
  cases hb : get_historical_balance book pcConv (.mk nm aco sg sp children)
      pco false currency true at_date none with
  | error e =>
    simp only [balance_by_currency, hb] at hs
    cases hs
  | ok p =>
    obtain ⟨b0, c0⟩ := p
    simp only [balance_by_currency, hb] at hs
    have := bbcChildren_keys book pcConv aco children ih at_date currency
      (if b0 ≠ 0 then [(aco.mnemonic, b0)] else []) s hs k hk
    rcases this with hser | ⟨b, hb', hbk⟩
    · refine ⟨.mk nm aco sg sp children, ?_, ?_⟩
      · simp [Account.subtree]
      · by_cases hz : b0 ≠ 0
        · simp [hz] at hser
          simp [Account.commodity, hser]
        · simp [hz] at hser
    · refine ⟨b, ?_, hbk⟩
      simp only [Account.subtree, List.mem_cons]
      exact Or.inr hb'

/-- C5 counterexample: with target currency EUR explicitly supplied, a
USD account with a GBP child yields a two-entry mapping keyed by the
native codes "USD" and "GBP" (values converted to EUR) — not a single
entry for the supplied currency. -/
theorem claim_c5_counterexample :
    balance_by_currency [⟨⟨"USD"⟩, ⟨"EUR"⟩, 0, 2⟩, ⟨⟨"GBP"⟩, ⟨"EUR"⟩, 0, 3⟩]
        (fun _ _ => .error .gncConversion)
        (.mk "A" ⟨"USD"⟩ 1 [⟨1, 0⟩] [.mk "B" ⟨"GBP"⟩ 1 [⟨1, 0⟩] []])
        ⟨"EUR"⟩ (some 0) (some ⟨"EUR"⟩)
      = .ok [("USD", 2), ("GBP", 3)]
    ∧ ([("USD", (2 : ℚ)), ("GBP", 3)]).length ≠ 1 := by
  constructor
  · simp [balance_by_currency, bbcChildren, get_historical_balance,
      convertBalance, splitsSum, currency_conversion_on_date, cacheLookup,
      cacheInsert, closestFactor, sortByDateAsc, List.insertionSort,
      forwardPrices, minByDist, seriesAdd, Except.map] <;> decide
  · decide

/-- C5 witness: the keys of that same mapping are native mnemonics of
subtree accounts. -/
theorem claim_c5_amended_witness :
    ∃ b ∈ (Account.mk "A" ⟨"USD"⟩ 1 [⟨1, 0⟩]
        [.mk "B" ⟨"GBP"⟩ 1 [⟨1, 0⟩] []]).subtree,
      b.commodity.mnemonic = "USD" :=
  claim_c5_amended [⟨⟨"USD"⟩, ⟨"EUR"⟩, 0, 2⟩, ⟨⟨"GBP"⟩, ⟨"EUR"⟩, 0, 3⟩]
    (fun _ _ => .error .gncConversion)
    (.mk "A" ⟨"USD"⟩ 1 [⟨1, 0⟩] [.mk "B" ⟨"GBP"⟩ 1 [⟨1, 0⟩] []])
    ⟨"EUR"⟩ (some 0) (some ⟨"EUR"⟩) [("USD", 2), ("GBP", 3)]
    (by simp [balance_by_currency, bbcChildren, get_historical_balance,
      convertBalance, splitsSum, currency_conversion_on_date, cacheLookup,
      cacheInsert, closestFactor, sortByDateAsc, List.insertionSort,
      forwardPrices, minByDist, seriesAdd, Except.map] <;> decide)
    "USD" (by decide)

/-- The function `top_and_other(in_data, top_n)` from `src/utils.py` lines 13-36, for
a `pandas.Series` (unique category labels): `totals` is `in_data`
itself, so the entries are sorted by value descending; the first `top_n`
are retained and `top_cols['Other']` is assigned the sum of the
remaining values (overwriting an existing "Other" label, as the pandas
assignment does). -/
def top_and_other_series (in_data : List (String × ℚ)) (top_n : ℕ) :
    List (String × ℚ) :=
  let sorted := List.insertionSort (fun a b : String × ℚ => b.2 ≤ a.2) in_data
  let top_cols := sorted.take top_n
  let other_cols := sorted.drop top_n
  setItem top_cols "Other" ((other_cols.map Prod.snd).sum)

/-- Column selection `in_data[names]` for a `pandas.DataFrame`: the columns selected by
name, in the order given. -/
def colSelect (in_data : List (String × List ℚ)) (names : List String) :
    List (String × List ℚ) :=
  names.filterMap (fun nm => (in_data.lookup nm).map (fun col => (nm, col)))

/-- Per-row sum of a frame (`sum(axis=1)` at row index `i`); absent
entries count 0. -/
def rowSum (cols : List (String × List ℚ)) (i : ℕ) : ℚ :=
  (cols.map (fun c => c.2.getD i 0)).sum

/-- The function `top_and_other(in_data, top_n)` for a `pandas.DataFrame` (columns
keyed by unique names, all of equal length): columns are ranked by their
sums, the top `top_n` kept, and an "Other" column holding the row-wise
sums of the remaining columns is assigned. -/
def top_and_other_frame (in_data : List (String × List ℚ)) (top_n : ℕ) :
    List (String × List ℚ) :=
  let totals := in_data.map (fun c => (c.1, c.2.sum))
  let sorted_col_names :=
    (List.insertionSort (fun a b : String × ℚ => b.2 ≤ a.2) totals).map Prod.fst
  let top_col_names := sorted_col_names.take top_n
  let other_col_names := sorted_col_names.drop top_n
  let top_cols := colSelect in_data top_col_names
  let nrows := ((in_data.head?).map (fun c => c.2.length)).getD 0
  let other_col := (List.range nrows).map (fun i =>
    rowSum (colSelect in_data other_col_names) i)
  setItem top_cols "Other" other_col

theorem setItem_not_mem {κ α : Type} [DecidableEq κ] (xs : List (κ × α))
    (k : κ) (v : α) (h : k ∉ xs.map Prod.fst) :
    setItem xs k v = xs ++ [(k, v)] := by
  rw [setItem, if_neg]
  intro hmem
  exact h (by simpa using hmem)

/-- C9 counterexample: a series already containing a category named
"Other" — its value is overwritten, so the total is not preserved. -/
theorem claim_c9_counterexample :
    ((top_and_other_series [("Other", 10), ("A", 1)] 2).map Prod.snd).sum = 1
    ∧ (([("Other", (10 : ℚ)), ("A", 1)]).map Prod.snd).sum = 11
    ∧ (1 : ℚ) ≠ 11 := by
  refine ⟨?_, by norm_num, by norm_num⟩
  norm_num [top_and_other_series, setItem, List.insertionSort,
    List.orderedInsert]
  decide

theorem colSelect_self (in_data : List (String × List ℚ))
    (hnd : (in_data.map Prod.fst).Nodup) :
    colSelect in_data (in_data.map Prod.fst) = in_data := by
  induction in_data with
  | nil => rfl
  | cons c cs ih =>
    obtain ⟨k, col⟩ := c
    simp only [List.map_cons, List.nodup_cons] at hnd
    obtain ⟨hk, hnd'⟩ := hnd
    simp only [List.map_cons, colSelect, List.filterMap_cons,
      List.lookup_cons_self, Option.map_some']
    congr 1
    have hcongr : ∀ nm ∈ cs.map Prod.fst,
        (((k, col) :: cs).lookup nm).map (fun c => (nm, c))
          = (cs.lookup nm).map (fun c => (nm, c)) := by
      intro nm hnm
      have hne : nm ≠ k := fun h => hk (h ▸ hnm)
      rw [List.lookup_cons, beq_false_of_ne hne]
    rw [List.filterMap_congr hcongr]
    exact ih hnd'

theorem colSelect_keys (in_data : List (String × List ℚ))
    (names : List String) (k : String)
    (h : k ∈ (colSelect in_data names).map Prod.fst) : k ∈ names := by
  simp only [colSelect, List.mem_map] at h
  obtain ⟨p, hp, hpk⟩ := h
  obtain ⟨nm, hnm, hmap⟩ := List.mem_filterMap.mp hp
  cases hl : in_data.lookup nm with
  | none => rw [hl] at hmap; cases hmap
  | some col =>
    rw [hl] at hmap
    cases hmap
    rw [← hpk]
    exact hnm

theorem rowSum_append (xs ys : List (String × List ℚ)) (i : ℕ) :
    rowSum (xs ++ ys) i = rowSum xs i + rowSum ys i := by
  simp [rowSum, List.map_append, List.sum_append]

theorem rowSum_perm (xs ys : List (String × List ℚ)) (h : xs.Perm ys)
    (i : ℕ) : rowSum xs i = rowSum ys i := by
  simp only [rowSum]
  exact (h.map _).sum_eq

theorem colSelect_append (in_data : List (String × List ℚ))
    (n1 n2 : List String) :
    colSelect in_data (n1 ++ n2)
      = colSelect in_data n1 ++ colSelect in_data n2 := by
  simp [colSelect, List.filterMap_append]

/-- C9 (amended): the Top-N reducer preserves totals provided no input
category is itself named "Other" (pandas assignment would overwrite such
a category, losing its value — see the counterexample): for a series the
value sum is preserved, and for a frame every row sum is preserved. -/
theorem claim_c9_amended :
    (∀ (in_data : List (String × ℚ)) (top_n : ℕ),
      (in_data.map Prod.fst).Nodup →
      "Other" ∉ in_data.map Prod.fst →
      ((top_and_other_series in_data top_n).map Prod.snd).sum
        = (in_data.map Prod.snd).sum)
    ∧ (∀ (in_data : List (String × List ℚ)) (top_n : ℕ) (nrows i : ℕ),
      (in_data.map Prod.fst).Nodup →
      "Other" ∉ in_data.map Prod.fst →
      (∀ c ∈ in_data, c.2.length = nrows) →
      i < nrows →
      rowSum (top_and_other_frame in_data top_n) i = rowSum in_data i) := by
  constructor
  · intro in_data top_n hnd hno
    have hperm := List.perm_insertionSort
      (fun a b : String × ℚ => b.2 ≤ a.2) in_data
    have hno' : "Other" ∉
        ((List.insertionSort (fun a b : String × ℚ => b.2 ≤ a.2)
          in_data).take top_n).map Prod.fst := by
      intro hmem
      apply hno
      obtain ⟨p, hp, hpk⟩ := List.mem_map.mp hmem
      exact List.mem_map.mpr
        ⟨p, hperm.subset (List.take_subset _ _ hp), hpk⟩
    rw [top_and_other_series, setItem_not_mem _ _ _ hno',
      List.map_append, List.sum_append]
    have hsum : (((List.insertionSort (fun a b : String × ℚ => b.2 ≤ a.2)
          in_data).take top_n).map Prod.snd).sum
        + (((List.insertionSort (fun a b : String × ℚ => b.2 ≤ a.2)
          in_data).drop top_n).map Prod.snd).sum
        = (in_data.map Prod.snd).sum := by
      rw [← List.sum_append, ← List.map_append, List.take_append_drop]
      exact (hperm.map Prod.snd).sum_eq
    simpa using hsum
  · intro in_data top_n nrows i hnd hno hlen hi
    cases hdata : in_data with
    | nil =>
      subst hdata
      simp [top_and_other_frame, colSelect, setItem, rowSum]
    | cons c0 cs0 =>
      rw [← hdata]
      have hne : in_data ≠ [] := by rw [hdata]; exact List.cons_ne_nil _ _
      have hnrows : ((in_data.head?).map (fun c => c.2.length)).getD 0
          = nrows := by
        rw [hdata]
        simp only [List.head?_cons, Option.map_some', Option.getD_some]
        exact hlen c0 (by rw [hdata]; simp)
      have htot : (in_data.map (fun c => (c.1, c.2.sum))).map Prod.fst
          = in_data.map Prod.fst := by
        simp [List.map_map]
      have hperm : ((List.insertionSort (fun a b : String × ℚ => b.2 ≤ a.2)
            (in_data.map (fun c => (c.1, c.2.sum)))).map Prod.fst).Perm
          (in_data.map Prod.fst) := by
        have := (List.perm_insertionSort
          (fun a b : String × ℚ => b.2 ≤ a.2)
          (in_data.map (fun c => (c.1, c.2.sum)))).map Prod.fst
        rw [htot] at this
        exact this
      set snames := (List.insertionSort (fun a b : String × ℚ => b.2 ≤ a.2)
        (in_data.map (fun c => (c.1, c.2.sum)))).map Prod.fst with hsnames
      have hno' : "Other" ∉ (colSelect in_data (snames.take top_n)).map
          Prod.fst := by
        intro hmem
        apply hno
        have hmem' := colSelect_keys _ _ _ hmem
        exact hperm.subset (List.take_subset _ _ hmem')
      rw [top_and_other_frame]
      rw [hnrows, ← hsnames]
      rw [setItem_not_mem _ _ _ hno', rowSum_append]
      have hother : rowSum [("Other",
          (List.range nrows).map (fun j =>
            rowSum (colSelect in_data (snames.drop top_n)) j))] i
          = rowSum (colSelect in_data (snames.drop top_n)) i := by
        simp only [rowSum, List.map_cons, List.map_nil, List.sum_cons,
          List.sum_nil, add_zero]
        rw [List.getD_eq_getElem?_getD, List.getElem?_map,
          List.getElem?_range hi]
        simp
      rw [hother, ← rowSum_append, ← colSelect_append]
      have hsplit : snames.take top_n ++ snames.drop top_n = snames :=
        List.take_append_drop _ _
      rw [hsplit]
      have hpermsel : (colSelect in_data snames).Perm
          (colSelect in_data (in_data.map Prod.fst)) :=
        hperm.filterMap _
      rw [rowSum_perm _ _ hpermsel i, colSelect_self in_data hnd]

/-- C9 witness: concrete series and frame instances of the amended
preservation property. -/
theorem claim_c9_amended_witness :
    ((top_and_other_series [("A", 3), ("B", 1)] 1).map Prod.snd).sum
        = (([("A", (3 : ℚ)), ("B", 1)]).map Prod.snd).sum
    ∧ rowSum (top_and_other_frame [("A", [1, 2]), ("B", [3, 4])] 1) 0
        = rowSum [("A", [1, 2]), ("B", [3, 4])] 0 :=
  ⟨claim_c9_amended.1 [("A", 3), ("B", 1)] 1 (by decide) (by decide),
   claim_c9_amended.2 [("A", [1, 2]), ("B", [3, 4])] 1 2 0 (by decide)
     (by decide) (by decide) (by decide)⟩

/-- Errors of the ECB exchange-rate parser (`src/exceptions.py` /
`src/prices/ecb_fx.py`): a missing rate (`PriceNotFoundError`, naming
the missing currency) — `BadDataError` for a malformed file is raised
before the per-date loop and is not modelled here. -/
inductive EcbError where
  | priceNotFound (currency : String)
deriving DecidableEq, Repr

/-- One `ecb:Cube currency=... rate=...` entry within a date cube. -/
structure EcbRateEntry where
  currency : String
  rate : ℚ
deriving DecidableEq, Repr

/-- One dated `ecb:Cube time=...` element with its rate entries. -/
structure DateCube where
  time : ℤ
  rates : List EcbRateEntry
deriving DecidableEq, Repr

/-- The function `ecb_fx_rate_from_eur(xml_cube, currency)` from
`src/prices/ecb_fx.py` lines 23-36: first matching entry, else
`PriceNotFoundError`. -/
def ecb_fx_rate_from_eur (cube : DateCube) (currency : String) :
    Except EcbError ℚ :=
  match cube.rates.find? (fun e => e.currency = currency) with
  | some e => .ok e.rate
  | none => .error (.priceNotFound currency)

/-- The function `ecb_fx_rate(xml_cube, to_currency, from_currency)` from
`src/prices/ecb_fx.py` lines 39-59. -/
def ecb_fx_rate (cube : DateCube) (to_currency from_currency : String) :
    Except EcbError ℚ :=
  if to_currency = from_currency then .ok 1
  else if from_currency = "EUR" then ecb_fx_rate_from_eur cube to_currency
  else if to_currency = "EUR" then
    (ecb_fx_rate_from_eur cube from_currency).map (fun r => 1 / r)
  else
    match ecb_fx_rate_from_eur cube to_currency with
    | .error e => .error e
    | .ok a =>
      match ecb_fx_rate_from_eur cube from_currency with
      | .error e => .error e
      | .ok b => .ok (a / b)

/-- The function `ecb_fx_rate_range(xml_root, start_date, end_date, to_currency,
from_currency, exclude_dates)` from `src/prices/ecb_fx.py` lines 62-90:
iterate over the date cubes, keep dates with
`start_date < date <= end_date` not excluded, store the rate into the
results dict, and skip (warn) dates whose rate cannot be found. -/
def ecb_fx_rate_range (cubes : List DateCube) (start_date end_date : ℤ)
    (to_currency from_currency : String) (exclude_dates : List ℤ) :
    List (ℤ × ℚ) :=
  cubes.foldl (fun results c =>
    if start_date < c.time ∧ c.time ≤ end_date
        ∧ ¬ exclude_dates.contains c.time then
      match ecb_fx_rate c to_currency from_currency with
      | .ok r => setItem results c.time r
      | .error _ => results
    else results) []

theorem setItem_keys {κ α : Type} [DecidableEq κ] (xs : List (κ × α))
    (k k' : κ) (v : α) (h : k' ∈ (setItem xs k v).map Prod.fst) :
    k' = k ∨ k' ∈ xs.map Prod.fst := by
  by_cases hc : (xs.map Prod.fst).contains k
  · simp only [setItem, if_pos hc, List.map_map, List.mem_map] at h
    obtain ⟨p, hp, hpk⟩ := h
    by_cases hpk' : p.1 = k
    · left
      rw [← hpk]
      simp [hpk']
    · right
      rw [← hpk]
      simp only [Function.comp_apply, if_neg hpk']
      exact List.mem_map.mpr ⟨p, hp, rfl⟩
  · simp only [setItem, if_neg hc, List.map_append, List.mem_append,
      List.map_cons, List.map_nil, List.mem_cons] at h
    rcases h with h | h
    · exact Or.inr h
    · rcases h with h | h
      · exact Or.inl h
      · cases h

theorem ecb_fx_rate_range_keys_aux (cubes : List DateCube)
    (start_date end_date : ℤ) (to_currency from_currency : String)
    (exclude_dates : List ℤ) (acc : List (ℤ × ℚ))
    (hacc : ∀ d ∈ acc.map Prod.fst, start_date < d ∧ d ≤ end_date) :
    ∀ d ∈ (cubes.foldl (fun results c =>
        if start_date < c.time ∧ c.time ≤ end_date
            ∧ ¬ exclude_dates.contains c.time then
          match ecb_fx_rate c to_currency from_currency with
          | .ok r => setItem results c.time r
          | .error _ => results
        else results) acc).map Prod.fst,
      start_date < d ∧ d ≤ end_date := by
  induction cubes generalizing acc with
  | nil =>
    intro d hd
    exact hacc d hd
  | cons c cs ih =>
    intro d hd
    simp only [List.foldl_cons] at hd
    by_cases hcond : start_date < c.time ∧ c.time ≤ end_date
        ∧ ¬ exclude_dates.contains c.time
    · rw [if_pos hcond] at hd
      cases hr : ecb_fx_rate c to_currency from_currency with
      | ok r =>
        rw [hr] at hd
        refine ih (setItem acc c.time r) ?_ d hd
        intro d' hd'
        rcases setItem_keys acc c.time d' r hd' with rfl | hmem
        · exact ⟨hcond.1, hcond.2.1⟩
        · exact hacc d' hmem
      | error e =>
        rw [hr] at hd
        exact ih acc hacc d hd
    · rw [if_neg hcond] at hd
      exact ih acc hacc d hd

/-- C10: every date in the mapping returned by `ecb_fx_rate_range` is
strictly greater than `start_date` and at most `end_date`; in
particular `start_date` itself never appears, even when the source holds
a rate for it. -/
theorem claim_c10_range_strict_lower (cubes : List DateCube)
    (start_date end_date : ℤ) (to_currency from_currency : String)
    (exclude_dates : List ℤ) :
    (∀ d ∈ (ecb_fx_rate_range cubes start_date end_date to_currency
        from_currency exclude_dates).map Prod.fst,
      start_date < d ∧ d ≤ end_date)
    ∧ start_date ∉ (ecb_fx_rate_range cubes start_date end_date
        to_currency from_currency exclude_dates).map Prod.fst := by
  have hmain := ecb_fx_rate_range_keys_aux cubes start_date end_date
    to_currency from_currency exclude_dates [] (by intro d hd; cases hd)
  refine ⟨hmain, ?_⟩
  intro hmem
  exact absurd (hmain start_date hmem).1 (lt_irrefl _)

/-- C10 witness: a source holding rates for the start date and one later
date; the later date is in the mapping and satisfies the bounds. -/
theorem claim_c10_range_strict_lower_witness :
    (5 : ℤ) ∈ (ecb_fx_rate_range
        [⟨0, [⟨"USD", 2⟩]⟩, ⟨5, [⟨"USD", 3⟩]⟩] 0 10 "USD" "EUR" []).map
        Prod.fst
    ∧ (0 : ℤ) < 5 ∧ (5 : ℤ) ≤ 10 :=
  ⟨by decide,
   (claim_c10_range_strict_lower
      [⟨0, [⟨"USD", 2⟩]⟩, ⟨5, [⟨"USD", 3⟩]⟩] 0 10 "USD" "EUR" []).1 5
      (by decide)⟩

/-- Python-level errors of the analysis layer: a `TypeError` from
binding an unknown keyword argument, a `KeyError` from
`account.children(name=t)`, and wrapped conversion errors. -/
inductive PyError where
  | typeError (kw : String)
  | keyError (name : String)
  | conv (e : ConvError)
deriving DecidableEq, Repr

/-- The parameters accepted by `get_historical_balance`
(`src/utils.py` lines 107-109). -/
def get_historical_balance_param_names : List String :=
  ["account", "recurse", "commodity", "natural_sign", "at_date",
   "closest_conv_cache"]

/-- Python call semantics for a keyword call of
`get_historical_balance`: binding an unknown keyword raises `TypeError`
naming it before the body runs; otherwise the body runs. -/
def call_get_historical_balance (kwargs : List String)
    (run : Unit → Except ConvError ℚ) : Except PyError ℚ :=
  match kwargs.find? (fun k =>
      ¬ get_historical_balance_param_names.contains k) with
  | some k => .error (.typeError k)
  | none =>
    match run () with
    | .ok v => .ok v
    | .error e => .error (.conv e)

/-- Python's `full_name.split(':')`, modelled on the character list. -/
def splitColon (full_name : String) : List String :=
  (full_name.toList.splitOn ':').map List.asString

/-- The method `BookAnalysis.get_account` (`src/analysis.py` lines 40-51), walking
the children by name segment by segment, additionally tracking the
commodity of the resolved account's parent (needed by the balance
calculator); `account.children(name=t)` fails when no child matches. -/
def get_account_walk : Account → Commodity → List String →
    Except PyError (Account × Commodity)
  | acct, pco, [] => .ok (acct, pco)
  | acct, _, t :: ts =>
    match acct.children.find? (fun c => c.name = t) with
    | some c => get_account_walk c acct.commodity ts
    | none => .error (.keyError t)

/-- The method `BookAnalysis.agg_balance(account_names, currency, via, at_date)`
from `src/analysis.py` lines 72-79: for each name, resolve the account
and call `get_historical_balance(acct, commodity=currency,
at_date=at_date, via=via, natural_sign=False)`; the results are summed.
Note the `via` keyword in that call, which `get_historical_balance`
(`src/utils.py`) does not accept. -/
def agg_balance (book : List Price)
    (pcConv : Commodity → Commodity → Except ConvError ℚ)
    (root : Account) (root_pco : Commodity)
    (account_names : List String) (currency : Commodity)
    (at_date : Option ℤ) : Except PyError ℚ :=
  (account_names.mapM (fun a => do
    let r ← get_account_walk root root_pco (splitColon a)
    call_get_historical_balance
      ["commodity", "at_date", "via", "natural_sign"]
      (fun _ => getHBval book pcConv r.1 r.2 true (some currency) false
        at_date none))).map List.sum

/-- C1: `agg_balance` on any non-empty account list fails with
`TypeError` on the unexpected keyword `via` instead of returning the sum
of the accounts' `natural_sign=False` balances — evaluated here at a
concrete one-account book. -/
theorem claim_c1_agg_balance_via_type_error :
    agg_balance [] (fun _ _ => .error .gncConversion)
        (.mk "Root" ⟨"EUR"⟩ 1 [] [.mk "Assets" ⟨"EUR"⟩ 1 [⟨1, 0⟩] []])
        ⟨"EUR"⟩ ["Assets"] ⟨"EUR"⟩ none
      = .error (.typeError "via") := by
  decide
